import Mathlib

/-!
Verification of the document-processing core of the `omni-chat` repository
(`backend/utils/document_processor.py`): chunking, TF-IDF indexing, query
processing, search ranking, caching and the document store.

Text is modelled as `List Char` (Python strings are sequences of code
points); Python `dict`s are modelled as association lists in insertion
order; Python floats are modelled as exact rationals, and the transcendental
`np.log` as `Real.log` (scores are therefore stated over `ℝ`, with the
computable data kept in `ℚ`/`ℕ`).  Character classes (`\w`, `\s`) are
modelled over their ASCII range, which covers every input considered here.
A Python loop that could fail to terminate (`_chunk_text` when
`chunk_overlap ≥ chunk_size`) is modelled with explicit fuel, returning
`none` when the fuel runs out, so nontermination is observable.
-/

namespace OmniChat

/-! ### Python string primitives -/

/-- ASCII range of Python's `\s` class: space, tab, newline, carriage return,
vertical tab, form feed. -/
def isPySpace (c : Char) : Bool :=
  c = ' ' || c = '\t' || c = '\n' || c = '\r' || c = '\x0b' || c = '\x0c'

/-- ASCII range of Python's `\w` class: letters, digits, underscore. -/
def isWordChar (c : Char) : Bool :=
  c.isAlpha || c.isDigit || c = '_'

/-- Python slice `s[-k:]`.  Note the Python gotcha `s[-0:] = s`. -/
def pySliceLast (l : List Char) (k : Nat) : List Char :=
  if k = 0 then l else l.drop (l.length - k)

/-- Python `str.strip()` over the ASCII whitespace class. -/
def pyStrip (l : List Char) : List Char :=
  ((l.dropWhile isPySpace).reverse.dropWhile isPySpace).reverse

/-- Python `str.count(pat)`: number of non-overlapping occurrences of `pat`,
scanning left to right (`"".count` conventions included).  The scan consumes
at least one character per step, so fuel `s.length + 1` is never exhausted;
it only makes the recursion structural. -/
def strCount (s pat : List Char) : Nat :=
  if pat.isEmpty then s.length + 1 else go (s.length + 1) s
where
  go : Nat → List Char → Nat
    | 0, _ => 0
    | _, [] => 0
    | fuel + 1, c :: rest =>
      if pat.isPrefixOf (c :: rest) then 1 + go fuel (rest.drop (pat.length - 1))
      else go fuel rest

/-- Lower-casing of a Python string (ASCII). -/
def lowerL (l : List Char) : List Char := l.map Char.toLower

theorem length_dropWhile_le (p : Char → Bool) (l : List Char) :
    (l.dropWhile p).length ≤ l.length :=
  ((List.dropWhile_suffix p).sublist).length_le

/-- `re.findall(r'\w+', s)`: the maximal runs of word characters, collected
by a single left-to-right scan with an accumulator for the current run. -/
def findWords (l : List Char) : List (List Char) :=
  go [] l
where
  go (acc : List Char) : List Char → List (List Char)
    | [] => if acc.isEmpty then [] else [acc.reverse]
    | c :: rest =>
      if isWordChar c then go (c :: acc) rest
      else if acc.isEmpty then go [] rest
      else acc.reverse :: go [] rest

/-! ### Fixed-mode chunker (`_chunk_text`)

The `while start < text_len` loop of `_chunk_text` is modelled with fuel;
one unit of fuel is one loop iteration, and exhausted fuel with the loop
condition still true yields `none`. -/

/-- The loop of `_chunk_text`: chunk `text[start:end]` with
`end = min(start + chunk_size, text_len)`, then
`start = end - chunk_overlap if end < text_len else text_len`. -/
def chunkLoop (text : List Char) (size ov : Nat) : Nat → Nat → Option (List (List Char))
  | 0, start => if start < text.length then none else some []
  | fuel + 1, start =>
    if start < text.length then
      let e := min (start + size) text.length
      match chunkLoop text size ov fuel (if e < text.length then e - ov else text.length) with
      | some rest => some (((text.drop start).take (e - start)) :: rest)
      | none => none
    else some []

/-- `_chunk_text`: empty text gives no chunks, text of length at most
`chunk_size` gives one chunk, otherwise the sliding-window loop runs
(with fuel `text.length`, which suffices whenever `ov < size`). -/
def chunk_text (text : List Char) (size ov : Nat) : Option (List (List Char)) :=
  if text.length = 0 then some []
  else if text.length ≤ size then some [text]
  else chunkLoop text size ov text.length 0

/-- Reassembly used by the chunk-coverage property: keep the first chunk
whole and strip the declared overlap from the front of every later chunk. -/
def reassemble (ov : Nat) : List (List Char) → List Char
  | [] => []
  | c :: rest => c ++ (rest.map (List.drop ov)).flatten

/-! ### Structure-aware chunker (`_smart_chunk_text`) -/

/-- Index of the last newline of a list, if any. -/
def lastNewline : List Char → Option Nat
  | [] => none
  | c :: rest =>
    match lastNewline rest with
    | some j => some (j + 1)
    | none => if c = '\n' then some 0 else none

/-- Given the text following a `'\n'`, the number of characters consumed by
the rest of a (greedy) match of `re` pattern `\n\s*\n` starting at that
newline, if the pattern matches there: the `\s*` part plus the final `\n`
extend to the last newline of the whitespace run. -/
def paraSepLen (rest : List Char) : Option Nat :=
  (lastNewline (rest.takeWhile isPySpace)).map (· + 1)

/-- `re.split(r'\n\s*\n', text)`: scan left to right, and split at each
leftmost match of a blank-line separator.  Every step consumes at least one
character, so fuel `text.length + 1` is never exhausted; it only makes the
recursion structural. -/
def splitParagraphs (text : List Char) : List (List Char) :=
  go (text.length + 1) [] text
where
  go : Nat → List Char → List Char → List (List Char)
    | 0, cur, _ => [cur.reverse]
    | _, cur, [] => [cur.reverse]
    | fuel + 1, cur, c :: rest =>
      if c = '\n' then
        match paraSepLen rest with
        | some k => cur.reverse :: go fuel [] (rest.drop k)
        | none => go fuel (c :: cur) rest
      else go fuel (c :: cur) rest

/-- `re.split(r'(?<=[.!?])\s+', paragraph)`: split where a whitespace run
follows one of `.`, `!`, `?`; the lookbehind keeps the punctuation in the
left piece and the whitespace run is consumed.  Fuel as in
`splitParagraphs`. -/
def splitSentences (text : List Char) : List (List Char) :=
  go (text.length + 1) none [] text
where
  go : Nat → Option Char → List Char → List Char → List (List Char)
    | 0, _, cur, _ => [cur.reverse]
    | _, _, cur, [] => [cur.reverse]
    | fuel + 1, prev, cur, c :: rest =>
      if isPySpace c ∧ (prev = some '.' ∨ prev = some '!' ∨ prev = some '?') then
        cur.reverse :: go fuel none [] (rest.dropWhile isPySpace)
      else go fuel (some c) (c :: cur) rest

/-- `current_chunk[-chunk_overlap:] if len(current_chunk) > chunk_overlap
else current_chunk` — the overlap seed for a freshly opened chunk. -/
def overlapOf (ov : Nat) (cur : List Char) : List Char :=
  if ov < cur.length then pySliceLast cur ov else cur

/-- One iteration of the sentence loop inside `_smart_chunk_text`, on state
`(chunks, current_chunk)`.  `none` models the (unreachable in practice)
failure cases: a diverging fixed-mode fallback or Python's `IndexError` on
`[][-1]`. -/
def sentenceStep (size ov : Nat) (st : List (List Char) × List Char) (s : List Char) :
    Option (List (List Char) × List Char) :=
  let (chunks, cur) := st
  if size < cur.length + s.length then
    if !cur.isEmpty then
      some (chunks ++ [cur], overlapOf ov cur ++ s)
    else
      if size < s.length then
        match chunk_text s size ov with
        | some (c :: cs) => some (chunks ++ (c :: cs).dropLast, (c :: cs).getLastD [])
        | _ => none
      else some (chunks, s)
  else some (chunks, cur ++ (if cur.isEmpty then [] else [' ']) ++ s)

/-- One iteration of the paragraph loop of `_smart_chunk_text`. -/
def paragraphStep (size ov : Nat) (st : List (List Char) × List Char) (p : List Char) :
    Option (List (List Char) × List Char) :=
  let (chunks, cur) := st
  if (pyStrip p).isEmpty then some st
  else if size < cur.length + p.length then
    if !cur.isEmpty then
      let chunks' := chunks ++ [cur]
      if size < p.length then
        (splitSentences p).foldlM (sentenceStep size ov) (chunks', [])
      else
        some (chunks', overlapOf ov cur ++ p)
    else
      if size < p.length then
        match chunk_text p size ov with
        | some (c :: cs) => some (chunks ++ (c :: cs).dropLast, (c :: cs).getLastD [])
        | _ => none
      else some (chunks, p)
  else some (chunks, cur ++ (if cur.isEmpty then [] else ['\n', '\n']) ++ p)

/-- `_smart_chunk_text`: same degenerate cases as `_chunk_text`, then the
paragraph loop, closing the trailing `current_chunk` if non-empty. -/
def smart_chunk_text (text : List Char) (size ov : Nat) : Option (List (List Char)) :=
  if text.length = 0 then some []
  else if text.length ≤ size then some [text]
  else
    match (splitParagraphs text).foldlM (paragraphStep size ov) ([], []) with
    | some (chunks, cur) => some (if cur.isEmpty then chunks else chunks ++ [cur])
    | none => none

/-! ### Association lists (Python `dict`s, in insertion order) -/

/-- Lookup in a Python `dict` modelled as an association list. -/
def alookup {κ β : Type} [DecidableEq κ] (k : κ) : List (κ × β) → Option β
  | [] => none
  | (k', v) :: rest => if k' = k then some v else alookup k rest

/-- `d[k] = v`: overwrite in place, or append a new key. -/
def dictInsert {κ β : Type} [DecidableEq κ] (d : List (κ × β)) (k : κ) (v : β) :
    List (κ × β) :=
  match d with
  | [] => [(k, v)]
  | (k', v') :: rest => if k' = k then (k', v) :: rest else (k', v') :: dictInsert rest k v

/-- `d[k] = d.get(k, 0) + 1` as in the term-frequency count loop. -/
def bump (d : List (String × Nat)) (k : String) : List (String × Nat) :=
  match d with
  | [] => [(k, 1)]
  | (k', v) :: rest => if k' = k then (k', v + 1) :: rest else (k', v) :: bump rest k

/-! ### Tokenization and the inverted index (`_process_chunk_for_index`,
`_refresh_inverted_index`) -/

/-- The stop-word set of `DocumentProcessor.__init__`. -/
def stopWords : List String :=
  ["the", "and", "for", "are", "but", "not", "you", "all", "any", "can", "had", "her", "was",
   "one", "our", "out", "day", "get", "has", "him", "his", "how", "man", "new", "now", "old",
   "see", "two", "way", "who", "did", "its", "let", "say", "she", "too", "use", "that", "with",
   "from", "this", "what", "when", "have", "they", "will", "been", "much", "some", "then", "than",
   "very", "just", "into", "like", "more", "over", "only", "such", "take", "time", "upon", "well",
   "were", "your"]

/-- The filter applied to tokens by both indexing and querying:
length at least 3 and not a stop word. -/
def surviving (w : String) : Bool :=
  3 ≤ w.length && !stopWords.contains w

/-- `re.findall(r'\w+', content.lower())` as a list of `String` tokens. -/
def tokensOf (content : String) : List String :=
  (findWords (lowerL content.toList)).map List.asString

/-- The term-frequency counting loop of `_process_chunk_for_index`:
count every surviving token. -/
def termCounts (ws : List String) : List (String × Nat) :=
  ws.foldl (fun d w => if surviving w then bump d w else d) []

/-- The term-frequency dictionary of `_process_chunk_for_index` for a chunk
content: counts of surviving tokens, each divided by the total token count
(word-character runs before filtering). -/
def termFreqs (content : String) : List (String × ℚ) :=
  let ws := tokensOf content
  if ws.length = 0 then []
  else (termCounts ws).map (fun p => (p.1, (p.2 : ℚ) / ws.length))

/-- A persisted chunk record as read back from disk by the index refresh. -/
structure RawChunk where
  docId : String
  chunkNum : String
  content : String
  deriving DecidableEq

/-- `chunk_id = f"{doc_id}_{chunk_num}"`. -/
def rawChunkId (c : RawChunk) : String :=
  c.docId ++ "_" ++ c.chunkNum

/-- A chunk contributes to the index only if its `doc_id` is truthy and its
term-frequency dictionary is non-empty
(the `if chunk_id and doc_id and terms_freq` guard). -/
def contributing (c : RawChunk) : Bool :=
  !c.docId.isEmpty && !(termFreqs c.content).isEmpty

/-- The distinct document identifiers appearing among contributing chunks
(the keys of `doc_term_counts`). -/
def corpusDocs (corpus : List RawChunk) : List String :=
  ((corpus.filter contributing).map (·.docId)).dedup

/-- Whether some contributing chunk of document `d` contains term `t`. -/
def docHasTerm (corpus : List RawChunk) (d t : String) : Bool :=
  (corpus.filter contributing).any fun c => c.docId = d && (alookup t (termFreqs c.content)).isSome

/-- `doc_frequencies[t]`: the number of distinct documents with a chunk
containing `t`. -/
def dfTerm (corpus : List RawChunk) (t : String) : Nat :=
  (corpusDocs corpus).countP fun d => docHasTerm corpus d t

/-- The inverted index built by `_refresh_inverted_index`, keyed by
`(term, chunk_id)`.  The transcendental score
`tf * ln(total_documents / df + 1)` is kept symbolically as the pair
`(tf, df)`; `entryScore` interprets it in `ℝ` against the metadata file
count `total_documents`. -/
def indexEntries (corpus : List RawChunk) :
    List ((String × String) × ℚ × Nat) :=
  (corpus.filter contributing).flatMap fun c =>
    (termFreqs c.content).filterMap fun p =>
      if 0 < dfTerm corpus p.1 then some ((p.1, rawChunkId c), p.2, dfTerm corpus p.1)
      else none

/-- `score = tf * np.log(total_documents / df + 1)` (real division followed
by the natural logarithm, exactly as `self.total_documents /
self.doc_frequencies[term] + 1` parses). -/
noncomputable def entryScore (totalDocs : Nat) (p : ℚ × Nat) : ℝ :=
  (p.1 : ℝ) * Real.log ((totalDocs : ℝ) / (p.2 : ℝ) + 1)

/-- Lookup of one index cell, `inverted_index[term][chunk_id]`. -/
def lookupIndex (corpus : List RawChunk) (t cid : String) :
    Option (ℚ × Nat) :=
  (indexEntries corpus).find? (fun e => e.1 = (t, cid)) |>.map (·.2)

/-! ### Query processing (`_process_query`) -/

/-- `_process_query`: lower-case and tokenize the query, keep surviving
terms at weight `1.0`, then re-weight every surviving term to
`1.0 + query.count(word) / len(words)` — `str.count` is a substring count
over the lower-cased query. -/
def process_query (q : String) : List (String × ℚ) :=
  let lq := lowerL q.toList
  let ws := (findWords lq).map List.asString
  let d0 := ws.foldl (fun d w => if surviving w then dictInsert d w 1 else d) []
  ws.foldl
    (fun d w =>
      if (alookup w d).isSome then
        dictInsert d w (1 + (strCount lq w.toList : ℚ) / ws.length)
      else d)
    d0

/-- The query tokens, as used by `_process_query` (`re.findall` on the
lower-cased query). -/
def queryWords (q : String) : List String :=
  (findWords (lowerL q.toList)).map List.asString

/-! ### Search scoring (`search_documents`) -/

/-- `chunk_id.split('_')[0]`: the part before the first underscore. -/
def chunkDocOf (cid : String) : String :=
  (cid.toList.takeWhile (· ≠ '_')).asString

/-- The `doc_ids` restriction: Python skips the filter when `doc_ids` is
`None` *or* empty (`if doc_ids:`). -/
def docFilterOk (docIds : Option (List String)) (cid : String) : Bool :=
  match docIds with
  | none => true
  | some ids => if ids.isEmpty then true else ids.contains (chunkDocOf cid)

/-- The accumulated pre-boost score of a candidate chunk:
`chunk_scores[chunk_id] += score * term_weight` over all query terms whose
index row contains the chunk (subject to the document filter). -/
noncomputable def accumScore (totalDocs : Nat) (corpus : List RawChunk)
    (qts : List (String × ℚ)) (docIds : Option (List String)) (cid : String) : ℝ :=
  (qts.map fun tw =>
    match lookupIndex corpus tw.1 cid with
    | some p => if docFilterOk docIds cid then entryScore totalDocs p * (tw.2 : ℝ) else 0
    | none => 0).sum

/-- `len(chunk_matches[chunk_id])`: the number of distinct query terms whose
index row contains the chunk. -/
def matchCount (corpus : List RawChunk) (qts : List (String × ℚ))
    (docIds : Option (List String)) (cid : String) : Nat :=
  qts.countP fun tw => (lookupIndex corpus tw.1 cid).isSome && docFilterOk docIds cid

/-- The coverage boost: `chunk_scores[chunk_id] *= (1.0 + match_percentage)`
with `match_percentage = len(chunk_matches[chunk_id]) / len(query_terms)`. -/
noncomputable def finalScore (totalDocs : Nat) (corpus : List RawChunk)
    (qts : List (String × ℚ)) (docIds : Option (List String)) (cid : String) : ℝ :=
  accumScore totalDocs corpus qts docIds cid *
    (1 + (matchCount corpus qts docIds cid : ℝ) / (qts.length : ℝ))

/-! ### Cache layer (`_cache_cleanup` and the cache writes)

A cache is a Python dict `{key: (value, timestamp)}`, modelled as an
association list in insertion order with timestamps in `ℚ`. -/

/-- The cache-entry timestamp (`x[1][1]` in the sort key). -/
def entryTs {α : Type} (e : String × α × ℚ) : ℚ := e.2.2

/-- Stable insertion into a timestamp-sorted list (earlier elements stay in
front of later equal-timestamp elements, as in Python's stable `sorted`). -/
def insertByTs {α : Type} (e : String × α × ℚ) :
    List (String × α × ℚ) → List (String × α × ℚ)
  | [] => [e]
  | x :: xs => if entryTs e ≤ entryTs x then e :: x :: xs else x :: insertByTs e xs

/-- `sorted(cache.items(), key=lambda x: x[1][1])`. -/
def sortByTs {α : Type} : List (String × α × ℚ) → List (String × α × ℚ)
  | [] => []
  | x :: xs => insertByTs x (sortByTs xs)

/-- Python slice `l[:-k]` (note `l[:-0] = []`). -/
def pyDropLastSlice {α : Type} (l : List α) (k : Nat) : List α :=
  if k = 0 then [] else l.take (l.length - k)

/-- `_cache_cleanup` on one cache: drop entries with `now - ts > ttl`, then,
if still over `cache_size`, delete the keys of `sorted_items[:-cache_size]`
(the oldest-timestamp entries). -/
def cache_cleanup {α : Type} (now ttl : ℚ) (size : Nat)
    (cache : List (String × α × ℚ)) : List (String × α × ℚ) :=
  let kept := cache.filter fun e => !(ttl < now - entryTs e)
  if size < kept.length then
    let toRemove := (pyDropLastSlice (sortByTs kept) size).map (·.1)
    kept.filter fun e => !(decide (e.1 ∈ toRemove))
  else kept

/-- A cache write such as `self.metadata_cache[doc_id] = (metadata,
time.time())` (no eviction is performed by a write). -/
def cachePut {α : Type} (cache : List (String × α × ℚ)) (k : String) (v : α) (t : ℚ) :
    List (String × α × ℚ) :=
  match cache with
  | [] => [(k, v, t)]
  | (k', v', t') :: rest => if k' = k then (k', v, t) :: rest else (k', v', t') :: cachePut rest k v t

/-! ### Document store (`process_document`, `_save_chunk`, `delete_document`)

The files on disk are modelled as two keyed record collections: one
metadata record per document and one record per chunk, keyed by
`(doc_id, chunk_id)`.  Wall-clock values (`created_at`,
`processing_time`) are passed in as parameters. -/

/-- The metadata record written by `process_document`. -/
structure DocMeta where
  docId : String
  filename : String
  chunkSize : Nat
  chunkOverlap : Nat
  smartChunking : Bool
  totalChunks : Nat
  totalChars : Nat
  createdAt : ℚ
  processingTime : ℚ
  fileType : String
  deriving DecidableEq

/-- The chunk record written by `_save_chunk`. -/
structure ChunkRec where
  docId : String
  chunkNum : Nat
  content : List Char
  startChar : Nat
  endChar : Nat
  filename : String
  deriving DecidableEq

/-- The persisted state: metadata files and chunk files, keyed records. -/
structure Store where
  metadata : List (String × DocMeta)
  chunks : List ((String × Nat) × ChunkRec)
  deriving DecidableEq

/-- `os.path.splitext` based file-type tag:
`splitext(filename)[1][1:] if '.' in filename else 'txt'` (common case:
the part after the last dot). -/
def fileTypeOf (filename : String) : String :=
  if filename.toList.contains '.' then
    ((filename.toList.reverse.takeWhile (· ≠ '.')).reverse).asString
  else "txt"

/-- `delete_document`: remove the metadata record and every chunk record of
the document, and return `deleted_chunks > 0`. -/
def delete_document (st : Store) (docId : String) : Store × Bool :=
  let deletedChunks := st.chunks.countP fun e => e.1.1 = docId
  (⟨st.metadata.filter (fun e => !(e.1 = docId)),
    st.chunks.filter (fun e => !(e.1.1 = docId))⟩,
   0 < deletedChunks)

/-- `process_document`, abstracted over the content hash (`hashlib.md5(...)
.hexdigest()` is an external library call, kept as a function parameter) and
over the two wall-clock readings.  Chunks are written at keys
`(doc_id, i)` with `start_char = i * (chunk_size - chunk_overlap)`, then the
metadata record is written.  Returns `none` when the chunker's fuel runs out
(nonterminating parameter combinations). -/
def process_document (hash : String → String) (st : Store)
    (content filename : String) (size ov : Nat) (smartChunking : Bool)
    (tNow tProc : ℚ) : Option (String × Store) :=
  let docId := hash content
  match (if smartChunking then smart_chunk_text content.toList size ov
         else chunk_text content.toList size ov) with
  | none => none
  | some chunks =>
    let meta : DocMeta :=
      ⟨docId, filename, size, ov, smartChunking, chunks.length, content.toList.length,
       tNow, tProc, fileTypeOf filename⟩
    let chunkRecs := chunks.enum.map fun ci =>
      ((docId, ci.1),
       (⟨docId, ci.1, ci.2, ci.1 * (size - ov), ci.1 * (size - ov) + ci.2.length, filename⟩ :
        ChunkRec))
    let chunks' := chunkRecs.foldl (fun d kv => dictInsert d kv.1 kv.2) st.chunks
    some (docId, ⟨dictInsert st.metadata docId meta, chunks'⟩)

/-! ## Helper lemmas about the fixed-mode chunker loop -/

/-- Once `start` has reached the end of the text the loop stops with no
further chunks, whatever fuel remains. -/
theorem chunkLoop_at_end (text : List Char) (size ov : Nat) :
    ∀ fuel, chunkLoop text size ov fuel text.length = some [] := by
  intro fuel
  cases fuel <;> simp [chunkLoop]

/-- Fuel `text.length - start` suffices for the `_chunk_text` loop whenever
`ov < size`: each iteration advances `start` by at least one. -/
theorem chunkLoop_isSome (text : List Char) (size ov : Nat) (hov : ov < size) :
    ∀ fuel start, text.length - start ≤ fuel → (chunkLoop text size ov fuel start).isSome := by
  intro fuel
  induction fuel with
  | zero =>
    intro start h
    have : ¬ start < text.length := by omega
    simp [chunkLoop, this]
  | succ n ih =>
    intro start h
    by_cases hs : start < text.length
    · have hnext : (chunkLoop text size ov n
          (if min (start + size) text.length < text.length
           then min (start + size) text.length - ov else text.length)).isSome := by
        by_cases he : min (start + size) text.length < text.length
        · have hmin : min (start + size) text.length = start + size := by omega
          refine ih _ ?_
          rw [if_pos he, hmin]
          omega
        · rw [if_neg he]
          exact ih _ (by omega)
      simp only [chunkLoop, hs, if_true]
      cases hcl : chunkLoop text size ov n
          (if min (start + size) text.length < text.length
           then min (start + size) text.length - ov else text.length) with
      | none => rw [hcl] at hnext; simp at hnext
      | some rest => simp
    · simp [chunkLoop, hs]

/-- Loop invariant for chunk coverage: stripping the declared overlap from
the front of every chunk produced from position `start` yields exactly
`text.drop (start + ov)`. -/
theorem chunkLoop_drop_flatten (text : List Char) (size ov : Nat) (hov : ov < size) :
    ∀ fuel start cs, chunkLoop text size ov fuel start = some cs →
      (cs.map (List.drop ov)).flatten = text.drop (start + ov) := by
  intro fuel
  induction fuel with
  | zero =>
    intro start cs h
    by_cases hs : start < text.length
    · simp [chunkLoop, hs] at h
    · simp [chunkLoop, hs] at h
      subst h
      simp [List.drop_eq_nil_of_le (by omega : text.length ≤ start + ov)]
  | succ n ih =>
    intro start cs h
    by_cases hs : start < text.length
    · simp only [chunkLoop, hs, if_true] at h
      set e := min (start + size) text.length with he
      cases hcl : chunkLoop text size ov n
          (if e < text.length then e - ov else text.length) with
      | none => rw [hcl] at h; simp at h
      | some rest =>
        rw [hcl] at h
        simp only [Option.some.injEq] at h
        subst h
        simp only [List.map_cons, List.flatten_cons]
        by_cases hel : e < text.length
        · rw [if_pos hel] at hcl
          have hrest := ih _ _ hcl
          have hee : e = start + size := by omega
          have hove : ov ≤ e - start := by omega
          have h1 : ((text.drop start).take (e - start)).drop ov
              = (text.drop (start + ov)).take (e - (start + ov)) := by
            rw [List.drop_take, List.drop_drop, Nat.sub_sub]
          rw [h1, hrest]
          have h2 : e - ov + ov = e := by omega
          rw [h2]
          have h3 : (text.drop (start + ov)).drop (e - (start + ov))
              = text.drop e := by
            rw [List.drop_drop]
            congr 1
            omega
          rw [← h3, List.take_append_drop]
        · rw [if_neg hel] at hcl
          have hrest : rest = [] := by
            rw [chunkLoop_at_end text size ov n] at hcl
            simpa using hcl.symm
          subst hrest
          have hee : e = text.length := by omega
          have h1 : (text.drop start).take (e - start) = text.drop start := by
            rw [hee]
            have : text.length - start = (text.drop start).length := by
              simp [List.length_drop]
            rw [this, List.take_length]
          rw [h1]
          simp [List.drop_drop, Nat.add_comm]
    · have : cs = [] := by
        simp [chunkLoop, hs] at h
        exact h
      subst this
      simp [List.drop_eq_nil_of_le (by omega : text.length ≤ start + ov)]

/-! ## C1 — chunk coverage round-trip -/

/-- C1 (counterexample): the round-trip fails for the structure-aware mode.
On `"aaaa\n\nbbbb"` with `chunk_size = 5` and `overlap = 2` (a valid pair),
`_smart_chunk_text` yields `["aaaa", "aabbbb"]`, and reassembling with the
declared overlap stripped gives `"aaaabbbb"`, not the original text: the
blank-line separator is lost. -/
theorem smart_chunk_roundtrip_fails :
    smart_chunk_text "aaaa\n\nbbbb".toList 5 2 =
      some ["aaaa".toList, "aabbbb".toList] ∧
    reassemble 2 ["aaaa".toList, "aabbbb".toList] ≠ "aaaa\n\nbbbb".toList ∧
    (2 : Nat) < 5 :=
  ⟨by decide, by decide, by decide⟩

/-- C1 (amended): the chunk-coverage round-trip holds for the fixed mode
(`_chunk_text`): for `ov < size`, concatenating the chunks with the declared
overlap removed from the front of every chunk after the first reproduces the
text exactly.  (The structure-aware mode does not have this property.) -/
theorem chunk_text_roundtrip (text : List Char) (size ov : Nat) (hov : ov < size)
    (cs : List (List Char)) (h : chunk_text text size ov = some cs) :
    reassemble ov cs = text := by
  unfold chunk_text at h
  by_cases h0 : text.length = 0
  · rw [if_pos h0] at h
    have : cs = [] := by simpa using h.symm
    subst this
    simp [reassemble, List.length_eq_zero.mp h0]
  · rw [if_neg h0] at h
    by_cases h1 : text.length ≤ size
    · rw [if_pos h1] at h
      have : cs = [text] := by simpa using h.symm
      subst this
      simp [reassemble]
    · rw [if_neg h1] at h
      have hlen : size < text.length := by omega
      obtain ⟨n, hn⟩ : ∃ n, text.length = n + 1 := ⟨text.length - 1, by omega⟩
      rw [hn] at h
      have hs : (0 : Nat) < text.length := by omega
      simp only [chunkLoop, hs, if_true] at h
      have hmin : min (0 + size) text.length = size := by omega
      rw [hmin] at h
      have hel : size < text.length := hlen
      rw [if_pos hel] at h
      cases hcl : chunkLoop text size ov n (size - ov) with
      | none => rw [hcl] at h; simp at h
      | some rest =>
        rw [hcl] at h
        simp only [Option.some.injEq] at h
        subst h
        have hrest := chunkLoop_drop_flatten text size ov hov n (size - ov) rest hcl
        have hso : size - ov + ov = size := by omega
        rw [hso] at hrest
        simp only [reassemble, List.drop_zero, Nat.sub_zero]
        rw [hrest, List.take_append_drop]

/-- C1 (witness for the amended theorem). -/
theorem chunk_text_roundtrip_witness :
    reassemble 1 ["abc".toList, "cde".toList, "efg".toList, "gh".toList]
      = "abcdefgh".toList :=
  chunk_text_roundtrip "abcdefgh".toList 3 1 (by decide)
    ["abc".toList, "cde".toList, "efg".toList, "gh".toList] (by decide)

/-! ## C2 — degenerate chunker inputs -/

/-- C2: for every `chunk_size` and `overlap`, empty text yields zero chunks
and non-empty text of length at most `chunk_size` yields exactly one chunk
equal to the whole input, in both fixed and structure-aware mode. -/
theorem chunker_degenerate_inputs (size ov : Nat) (text : List Char)
    (h1 : text ≠ []) (h2 : text.length ≤ size) :
    chunk_text [] size ov = some [] ∧ smart_chunk_text [] size ov = some [] ∧
    chunk_text text size ov = some [text] ∧
    smart_chunk_text text size ov = some [text] := by
  have h0 : ¬ text.length = 0 := by
    simpa [List.length_eq_zero] using h1
  refine ⟨by simp [chunk_text], by simp [smart_chunk_text], ?_, ?_⟩
  · simp [chunk_text, h0, h2]
  · simp [smart_chunk_text, h0, h2]

/-- C2 (witness), also at an overlap larger than the chunk size. -/
theorem chunker_degenerate_inputs_witness :
    chunk_text [] 3 7 = some [] ∧ smart_chunk_text [] 3 7 = some [] ∧
    chunk_text ['a', 'b'] 3 7 = some [['a', 'b']] ∧
    smart_chunk_text ['a', 'b'] 3 7 = some [['a', 'b']] :=
  chunker_degenerate_inputs 3 7 ['a', 'b'] (by decide) (by decide)

/-! ## C9 — fixed-mode chunker termination -/

/-- C9: `_chunk_text` terminates whenever `overlap < chunk_size` (fuel
linear in the text length suffices, because `start` strictly increases each
iteration); the hypothesis is required — with `chunk_size = 1` and
`overlap = 1` the loop never makes progress on a 2-character text, which the
fuel model reports as `none`. -/
theorem chunk_text_terminates :
    (∀ (text : List Char) (size ov : Nat), ov < size →
      (chunk_text text size ov).isSome) ∧
    chunk_text ['a', 'b'] 1 1 = none := by
  constructor
  · intro text size ov hov
    unfold chunk_text
    by_cases h0 : text.length = 0
    · simp [h0]
    · by_cases h1 : text.length ≤ size
      · simp [h0, h1]
      · simp only [h0, h1, if_false]
        exact chunkLoop_isSome text size ov hov text.length 0 (by omega)
  · decide

/-- C9 (witness for the terminating direction). -/
theorem chunk_text_terminates_witness :
    (chunk_text "abcd".toList 2 1).isSome :=
  chunk_text_terminates.1 "abcd".toList 2 1 (by decide)

/-! ## C10 — structure-aware chunks can exceed the target size -/

/-- C10: on a 22-character text with `chunk_size = 10` and `overlap = 5`,
`_smart_chunk_text` produces a chunk of length `15 = chunk_size + overlap`:
the chunk seeded with the trailing overlap of the closed chunk receives the
next paragraph without a size re-check. -/
theorem smart_chunk_exceeds_size :
    10 < ("aaaaaaaaaa\n\nbbbbbbbbbb".toList).length ∧
    smart_chunk_text "aaaaaaaaaa\n\nbbbbbbbbbb".toList 10 5 =
      some ["aaaaaaaaaa".toList, "aaaaabbbbbbbbbb".toList] ∧
    ("aaaaabbbbbbbbbb".toList).length = 10 + 5 ∧
    10 < ("aaaaabbbbbbbbbb".toList).length :=
  ⟨by decide, by decide, by decide, by decide⟩

/-! ## C7 — deletion result -/

/-- C7 (counterexample): on a store holding a metadata record for `"d"` but
no chunk records (exactly what ingesting empty content produces),
`delete_document "d"` removes the metadata record — something *was*
removed — yet returns `false`, because the return value is
`deleted_chunks > 0`. -/
theorem delete_document_metadata_only_returns_false :
    (delete_document
        ⟨[("d", ⟨"d", "f.txt", 1000, 200, true, 0, 0, 0, 0, "txt"⟩)], []⟩ "d").2 = false ∧
    (delete_document
        ⟨[("d", ⟨"d", "f.txt", 1000, 200, true, 0, 0, 0, 0, "txt"⟩)], []⟩ "d").1.metadata = [] ∧
    ([("d", (⟨"d", "f.txt", 1000, 200, true, 0, 0, 0, 0, "txt"⟩ : DocMeta))] :
        List (String × DocMeta)) ≠ [] :=
  ⟨by decide, by decide, by decide⟩

/-- C7 (amended): `delete_document` removes the metadata record and every
chunk record of the document, and returns `true` iff at least one *chunk*
record was removed (removing only a metadata record yields `false`). -/
theorem delete_document_amended (st : Store) (docId : String) :
    (∀ m ∈ (delete_document st docId).1.metadata, m.1 ≠ docId) ∧
    (∀ c ∈ (delete_document st docId).1.chunks, c.1.1 ≠ docId) ∧
    ((delete_document st docId).2 = true ↔ ∃ c ∈ st.chunks, c.1.1 = docId) := by
  refine ⟨?_, ?_, ?_⟩
  · intro m hm
    simp only [delete_document, List.mem_filter] at hm
    simpa using hm.2
  · intro c hc
    simp only [delete_document, List.mem_filter] at hc
    simpa using hc.2
  · simp only [delete_document, decide_eq_true_eq]
    rw [List.countP_pos_iff]
    simp

/-- C7 (witness for the amended theorem): a store with one chunk record. -/
theorem delete_document_amended_witness :
    (delete_document
        ⟨[], [(("x", 0), ⟨"x", 0, ['h', 'i'], 0, 2, "f.txt"⟩)]⟩ "x").2 = true :=
  (delete_document_amended
      ⟨[], [(("x", 0), ⟨"x", 0, ['h', 'i'], 0, 2, "f.txt"⟩)]⟩ "x").2.2.mpr
    ⟨(("x", 0), ⟨"x", 0, ['h', 'i'], 0, 2, "f.txt"⟩), by decide, by decide⟩

/-! ## Ordering lemmas for the cache eviction sort -/

theorem insertByTs_perm {α : Type} (e : String × α × ℚ) (l : List (String × α × ℚ)) :
    List.Perm (insertByTs e l) (e :: l) := by
  induction l with
  | nil => simp [insertByTs]
  | cons x xs ih =>
    simp only [insertByTs]
    by_cases h : entryTs e ≤ entryTs x
    · simp [h]
    · rw [if_neg h]
      exact (ih.cons x).trans (List.Perm.swap e x xs)

theorem sortByTs_perm {α : Type} (l : List (String × α × ℚ)) :
    List.Perm (sortByTs l) l := by
  induction l with
  | nil => simp [sortByTs]
  | cons x xs ih =>
    exact (insertByTs_perm x (sortByTs xs)).trans (ih.cons x)

theorem insertByTs_pairwise {α : Type} (e : String × α × ℚ) (l : List (String × α × ℚ))
    (h : l.Pairwise (fun a b => entryTs a ≤ entryTs b)) :
    (insertByTs e l).Pairwise (fun a b => entryTs a ≤ entryTs b) := by
  induction l with
  | nil => simp [insertByTs]
  | cons x xs ih =>
    simp only [insertByTs]
    rcases List.pairwise_cons.mp h with ⟨hx, hxs⟩
    by_cases hle : entryTs e ≤ entryTs x
    · rw [if_pos hle]
      refine List.pairwise_cons.mpr ⟨?_, h⟩
      intro b hb
      rcases List.mem_cons.mp hb with rfl | hb
      · exact hle
      · exact le_trans hle (hx b hb)
    · rw [if_neg hle]
      refine List.pairwise_cons.mpr ⟨?_, ih hxs⟩
      intro b hb
      have hmem := (insertByTs_perm e xs).mem_iff.mp hb
      rcases List.mem_cons.mp hmem with rfl | hb'
      · exact le_of_not_le hle
      · exact hx b hb'

theorem sortByTs_pairwise {α : Type} (l : List (String × α × ℚ)) :
    (sortByTs l).Pairwise (fun a b => entryTs a ≤ entryTs b) := by
  induction l with
  | nil => simp [sortByTs]
  | cons x xs ih => exact insertByTs_pairwise x (sortByTs xs) ih

/-! ## C6 — cache bound and eviction order -/

/-- C6 (counterexample): a cache write is a plain dict assignment and never
evicts — with size bound `1` and a cache already at the bound, the write
performed by `process_document` (`self.metadata_cache[doc_id] = (metadata,
time.time())`) leaves the cache with 2 entries.  Eviction happens only
inside `_cache_cleanup`, which runs at the start of cached reads, not after
a put. -/
theorem cache_put_exceeds_bound :
    cachePut [("a", 7, 0)] "b" 8 1 = [("a", 7, 0), ("b", 8, 1)] ∧
    (cachePut [("a", 7, 0)] "b" 8 1).length = 2 ∧ 1 < 2 :=
  ⟨by decide, by decide, by decide⟩

/-- C6 (amended): it is `_cache_cleanup` — run before cached reads, not
after puts — that restores the bound: after a cleanup with a positive size
bound on a cache with distinct keys, at most `cache_size` entries remain,
and every removed entry (TTL-expired or size-evicted) has a timestamp no
newer than every retained entry. -/
theorem cache_cleanup_amended {α : Type} (now ttl : ℚ) (size : Nat)
    (cache : List (String × α × ℚ)) (hsize : 0 < size)
    (hkeys : (cache.map (·.1)).Nodup) :
    (cache_cleanup now ttl size cache).length ≤ size ∧
    ∀ e ∈ cache, e ∉ cache_cleanup now ttl size cache →
      ∀ e' ∈ cache_cleanup now ttl size cache, entryTs e ≤ entryTs e' := by
  classical
  have hcc : cache_cleanup now ttl size cache =
      (if size < (cache.filter fun e => !(ttl < now - entryTs e)).length then
        (cache.filter fun e => !(ttl < now - entryTs e)).filter fun e =>
          !(decide (e.1 ∈ (pyDropLastSlice
              (sortByTs (cache.filter fun e => !(ttl < now - entryTs e))) size).map (·.1)))
      else cache.filter fun e => !(ttl < now - entryTs e)) := rfl
  generalize hkept : (cache.filter fun e => !(ttl < now - entryTs e)) = kept at hcc
  have hkeptsub : kept.Sublist cache := hkept ▸ List.filter_sublist cache
  have hkeptkeys : (kept.map (·.1)).Nodup := (hkeptsub.map (·.1)).nodup hkeys
  have hkeptnodup : kept.Nodup := hkeptkeys.of_map _
  -- the TTL-expired case of the ordering claim, shared by both branches
  have hexp : ∀ e ∈ cache, e ∉ kept → ∀ e' ∈ kept, entryTs e ≤ entryTs e' := by
    intro e he hnk e' he'
    have h2 : ttl < now - entryTs e := by
      by_contra hcon
      exact hnk (hkept ▸ List.mem_filter.mpr ⟨he, by simpa using hcon⟩)
    have h3 : ¬ ttl < now - entryTs e' := by
      have := (List.mem_filter.mp (hkept ▸ he')).2
      simpa using this
    have h4 : now - entryTs e' ≤ ttl := le_of_not_lt h3
    linarith
  by_cases hover : size < kept.length
  · -- eviction branch
    rw [if_pos hover] at hcc
    have hsz : ¬ size = 0 := by omega
    rw [pyDropLastSlice, if_neg hsz] at hcc
    have hperm : List.Perm (sortByTs kept) kept := sortByTs_perm kept
    have hslen : (sortByTs kept).length = kept.length := hperm.length_eq
    have hpair : (sortByTs kept).Pairwise (fun a b => entryTs a ≤ entryTs b) :=
      sortByTs_pairwise kept
    have hsplit : (sortByTs kept).take ((sortByTs kept).length - size) ++
        (sortByTs kept).drop ((sortByTs kept).length - size) = sortByTs kept :=
      List.take_append_drop _ _
    -- membership characterization of the result
    have hmem_res : ∀ e, e ∈ cache_cleanup now ttl size cache ↔
        e ∈ kept ∧
        e.1 ∉ ((sortByTs kept).take ((sortByTs kept).length - size)).map (·.1) := by
      intro e
      rw [hcc, List.mem_filter]
      simp
    -- an entry of `kept` whose key was scheduled for removal lies in the old part
    have hkey_old : ∀ e ∈ kept,
        e.1 ∈ ((sortByTs kept).take ((sortByTs kept).length - size)).map (·.1) →
        e ∈ (sortByTs kept).take ((sortByTs kept).length - size) := by
      intro e he hc
      rcases List.mem_map.mp hc with ⟨x, hxold, hxe⟩
      have hxs : x ∈ sortByTs kept := hsplit ▸ List.mem_append_left _ hxold
      have hxkept : x ∈ kept := hperm.mem_iff.mp hxs
      have hxeq := List.inj_on_of_nodup_map hkeptkeys hxkept he hxe
      rw [← hxeq]
      exact hxold
    -- entries of the result lie in the recent part
    have hres_recent : ∀ e ∈ cache_cleanup now ttl size cache,
        e ∈ (sortByTs kept).drop ((sortByTs kept).length - size) := by
      intro e he
      rcases (hmem_res e).mp he with ⟨hek, hcf⟩
      have hes : e ∈ sortByTs kept := hperm.mem_iff.mpr hek
      rcases List.mem_append.mp (hsplit ▸ hes) with hold' | hr
      · exact absurd (List.mem_map.mpr ⟨e, hold', rfl⟩) hcf
      · exact hr
    constructor
    · -- length bound: the result is a nodup subset of the recent part
      have hresnodup : (cache_cleanup now ttl size cache).Nodup := by
        rw [hcc]
        exact (List.filter_sublist kept).nodup hkeptnodup
      have hsp := List.subperm_of_subset hresnodup hres_recent
      have hlen := hsp.length_le
      have hreclen : ((sortByTs kept).drop ((sortByTs kept).length - size)).length
          = size := by
        simp only [List.length_drop]
        omega
      omega
    · -- ordering
      intro e he hnres e' he'
      by_cases hek : e ∈ kept
      · -- e survived the TTL check but was size-evicted: e is in the old part
        have hold : e ∈ (sortByTs kept).take ((sortByTs kept).length - size) := by
          refine hkey_old e hek ?_
          by_contra hcf
          exact hnres ((hmem_res e).mpr ⟨hek, hcf⟩)
        have he'r := hres_recent e' he'
        have hcross := (List.pairwise_append.mp (hsplit ▸ hpair)).2.2
        exact hcross e hold e' he'r
      · -- e was TTL-expired
        have he'k : e' ∈ kept := ((hmem_res e').mp he').1
        exact hexp e he hek e' he'k
  · -- no size eviction: the result is exactly `kept`
    rw [if_neg hover] at hcc
    constructor
    · rw [hcc]; omega
    · intro e he hnres e' he'
      rw [hcc] at hnres he'
      exact hexp e he hnres e' he'

/-- C6 (witness for the amended theorem). -/
theorem cache_cleanup_amended_witness :
    (cache_cleanup (0 : ℚ) 100 1 [("a", 7, (0 : ℚ)), ("b", 8, 1)]).length ≤ 1 ∧
    ∀ e ∈ [("a", 7, (0 : ℚ)), ("b", 8, 1)],
      e ∉ cache_cleanup (0 : ℚ) 100 1 [("a", 7, (0 : ℚ)), ("b", 8, 1)] →
      ∀ e' ∈ cache_cleanup (0 : ℚ) 100 1 [("a", 7, (0 : ℚ)), ("b", 8, 1)],
        entryTs e ≤ entryTs e' :=
  cache_cleanup_amended 0 100 1 [("a", 7, 0), ("b", 8, 1)] (by decide) (by decide)
/-! ## Dictionary lemmas -/

theorem alookup_dictInsert_self {κ β : Type} [DecidableEq κ]
    (d : List (κ × β)) (k : κ) (v : β) :
    alookup k (dictInsert d k v) = some v := by
  induction d with
  | nil => simp [dictInsert, alookup]
  | cons p rest ih =>
    obtain ⟨k', v'⟩ := p
    by_cases h : k' = k
    · simp [dictInsert, alookup, h]
    · simp [dictInsert, alookup, h, ih]

theorem alookup_dictInsert_ne {κ β : Type} [DecidableEq κ]
    (d : List (κ × β)) (k k0 : κ) (v : β) (h : k ≠ k0) :
    alookup k0 (dictInsert d k v) = alookup k0 d := by
  induction d with
  | nil => simp [dictInsert, alookup, h]
  | cons p rest ih =>
    obtain ⟨k', v'⟩ := p
    by_cases h' : k' = k
    · subst h'
      simp [dictInsert, alookup, h]
    · simp only [dictInsert, if_neg h', alookup]
      by_cases h0 : k' = k0 <;> simp [h0, ih]

theorem dictInsert_keys_of_mem {κ β : Type} [DecidableEq κ]
    (d : List (κ × β)) (k : κ) (v : β) (h : k ∈ d.map (·.1)) :
    (dictInsert d k v).map (·.1) = d.map (·.1) := by
  induction d with
  | nil => simp at h
  | cons p rest ih =>
    obtain ⟨k', v'⟩ := p
    by_cases h' : k' = k
    · simp [dictInsert, h']
    · have hk : k ∈ rest.map (·.1) := by
        rcases List.mem_map.mp h with ⟨x, hx, hxe⟩
        rcases List.mem_cons.mp hx with rfl | hx'
        · exact absurd hxe h'
        · exact List.mem_map.mpr ⟨x, hx', hxe⟩
      simp [dictInsert, h', ih hk]

theorem mem_keys_dictInsert {κ β : Type} [DecidableEq κ]
    (d : List (κ × β)) (k : κ) (v : β) :
    k ∈ (dictInsert d k v).map (·.1) := by
  induction d with
  | nil => simp [dictInsert]
  | cons p rest ih =>
    obtain ⟨k', v'⟩ := p
    by_cases h' : k' = k
    · simp [dictInsert, h']
    · simp only [dictInsert, if_neg h', List.map_cons, List.mem_cons]
      exact Or.inr ih

theorem dictInsert_of_alookup_eq {κ β : Type} [DecidableEq κ]
    (d : List (κ × β)) (k : κ) (v : β) (h : alookup k d = some v) :
    dictInsert d k v = d := by
  induction d with
  | nil => simp [alookup] at h
  | cons p rest ih =>
    obtain ⟨k', v'⟩ := p
    by_cases h' : k' = k
    · subst h'
      have hv : v' = v := by simpa [alookup] using h
      subst hv
      simp [dictInsert]
    · simp only [alookup, if_neg h'] at h
      simp [dictInsert, h', ih h]

/-- Writing a batch of key-value pairs into a dict, left to right. -/
def writeAll {κ β : Type} [DecidableEq κ] (d : List (κ × β)) (ps : List (κ × β)) :
    List (κ × β) :=
  ps.foldl (fun d kv => dictInsert d kv.1 kv.2) d

theorem alookup_writeAll_of_not_mem {κ β : Type} [DecidableEq κ]
    (ps : List (κ × β)) (d : List (κ × β)) (k : κ) (h : k ∉ ps.map (·.1)) :
    alookup k (writeAll d ps) = alookup k d := by
  induction ps generalizing d with
  | nil => simp [writeAll]
  | cons kv rest ih =>
    simp only [List.map_cons, List.mem_cons, not_or] at h
    simp only [writeAll, List.foldl_cons]
    rw [show (List.foldl (fun d kv => dictInsert d kv.1 kv.2)
        (dictInsert d kv.1 kv.2) rest) = writeAll (dictInsert d kv.1 kv.2) rest from rfl]
    rw [ih _ h.2, alookup_dictInsert_ne _ _ _ _ (fun he => h.1 he.symm)]

theorem alookup_writeAll_of_mem {κ β : Type} [DecidableEq κ]
    (ps : List (κ × β)) (d : List (κ × β)) (hnd : (ps.map (·.1)).Nodup) :
    ∀ kv ∈ ps, alookup kv.1 (writeAll d ps) = some kv.2 := by
  induction ps generalizing d with
  | nil => simp
  | cons kv0 rest ih =>
    intro kv hkv
    simp only [List.map_cons, List.nodup_cons] at hnd
    simp only [writeAll, List.foldl_cons]
    rw [show (List.foldl (fun d kv => dictInsert d kv.1 kv.2)
        (dictInsert d kv0.1 kv0.2) rest) = writeAll (dictInsert d kv0.1 kv0.2) rest from rfl]
    rcases List.mem_cons.mp hkv with rfl | hrest
    · rw [alookup_writeAll_of_not_mem rest _ _ hnd.1]
      exact alookup_dictInsert_self _ _ _
    · exact ih _ hnd.2 kv hrest

theorem writeAll_of_alookup {κ β : Type} [DecidableEq κ]
    (ps : List (κ × β)) (d : List (κ × β))
    (h : ∀ kv ∈ ps, alookup kv.1 d = some kv.2) :
    writeAll d ps = d := by
  induction ps with
  | nil => simp [writeAll]
  | cons kv rest ih =>
    simp only [writeAll, List.foldl_cons]
    rw [dictInsert_of_alookup_eq d kv.1 kv.2 (h kv (List.mem_cons_self kv rest))]
    exact ih fun kv' hkv' => h kv' (List.mem_cons_of_mem kv hkv')

/-- Re-writing the same batch of pairs (with distinct keys) is a no-op. -/
theorem writeAll_idem {κ β : Type} [DecidableEq κ]
    (ps : List (κ × β)) (d : List (κ × β)) (hnd : (ps.map (·.1)).Nodup) :
    writeAll (writeAll d ps) ps = writeAll d ps :=
  writeAll_of_alookup ps (writeAll d ps) (alookup_writeAll_of_mem ps d hnd)

/-! ## C8 — ingestion determinism and deduplication -/

/-- C8: `process_document` derives the identifier purely from the content
hash, the chunker is a pure function of its input and parameters (both
ingestions produce the same chunk sequence), and re-ingesting byte-identical
content rewrites the same record keys: the second ingestion returns the
same identifier, leaves the chunk records exactly unchanged, and adds no
metadata key (only the wall-clock fields of the metadata record change). -/
theorem process_document_dedup (hash : String → String) (st : Store)
    (content filename : String) (size ov : Nat) (smart : Bool)
    (t1 p1 t2 p2 : ℚ) (id1 : String) (st1 : Store)
    (h1 : process_document hash st content filename size ov smart t1 p1 = some (id1, st1)) :
    id1 = hash content ∧
    ∃ st2, process_document hash st1 content filename size ov smart t2 p2 = some (id1, st2) ∧
      st2.metadata.map (·.1) = st1.metadata.map (·.1) ∧
      st2.chunks = st1.chunks := by
  unfold process_document at h1 ⊢
  cases hch : (if smart then smart_chunk_text content.toList size ov
               else chunk_text content.toList size ov) with
  | none => rw [hch] at h1; cases h1
  | some cs =>
    simp only [hch] at h1 ⊢
    simp only [Option.some.injEq, Prod.mk.injEq] at h1
    obtain ⟨hid, hst⟩ := h1
    subst hid
    refine ⟨rfl, ?_⟩
    have hkeys : ((cs.enum.map fun ci =>
        ((hash content, ci.1),
         (⟨hash content, ci.1, ci.2, ci.1 * (size - ov), ci.1 * (size - ov) + ci.2.length,
           filename⟩ : ChunkRec))).map (·.1)).Nodup := by
      rw [List.map_map]
      have : ((·.1) ∘ fun ci : Nat × List Char =>
          ((hash content, ci.1),
           (⟨hash content, ci.1, ci.2, ci.1 * (size - ov), ci.1 * (size - ov) + ci.2.length,
             filename⟩ : ChunkRec))) = fun ci : Nat × List Char => (hash content, ci.1) := rfl
      rw [this]
      have hinj : ∀ x ∈ cs.enum.map (·.1), ∀ y ∈ cs.enum.map (·.1),
          (fun i => (hash content, i)) x = (fun i => (hash content, i)) y → x = y := by
        intro x _ y _ hxy
        simpa using hxy
      have henum : (cs.enum.map (·.1)).Nodup := by
        have : cs.enum.map (·.1) = List.range cs.length := List.enum_map_fst cs
        rw [this]
        exact List.nodup_range _
      have := List.Nodup.map_on hinj henum
      rw [List.map_map] at this
      exact this
    refine ⟨_, rfl, ?_, ?_⟩
    · -- metadata keys unchanged: the key is already present
      rw [← hst]
      exact dictInsert_keys_of_mem _ _ _ (mem_keys_dictInsert _ _ _)
    · -- chunk records unchanged: the same pairs are re-written
      rw [← hst]
      exact writeAll_idem _ _ hkeys

/-- C8 (witness). -/
theorem process_document_dedup_witness :
    ("d0" : String) = "d0" ∧
    ∃ st2, process_document (fun _ => "d0")
        ⟨[("d0", ⟨"d0", "f.txt", 5, 2, false, 1, 5, 1, 2, "txt"⟩)],
         [(("d0", 0), ⟨"d0", 0, "hello".toList, 0, 5, "f.txt"⟩)]⟩
        "hello" "f.txt" 5 2 false 3 4 = some ("d0", st2) ∧
      st2.metadata.map (·.1) =
        ([("d0", (⟨"d0", "f.txt", 5, 2, false, 1, 5, 1, 2, "txt"⟩ : DocMeta))] :
          List (String × DocMeta)).map (·.1) ∧
      st2.chunks = [(("d0", 0), ⟨"d0", 0, "hello".toList, 0, 5, "f.txt"⟩)] :=
  process_document_dedup (fun _ => "d0") ⟨[], []⟩ "hello" "f.txt" 5 2 false 1 2 3 4 "d0"
    ⟨[("d0", ⟨"d0", "f.txt", 5, 2, false, 1, 5, 1, 2, "txt"⟩)],
     [(("d0", 0), ⟨"d0", 0, "hello".toList, 0, 5, "f.txt"⟩)]⟩
    (by decide)

/-! ## C4 — query term weighting -/

/-- Membership in the weight dictionary after the comprehension pass of
`_process_query`. -/
theorem alookup_isSome_initPass (ws : List String) (d : List (String × ℚ)) (t : String) :
    (alookup t (ws.foldl (fun d w => if surviving w then dictInsert d w 1 else d) d)).isSome ↔
      ((alookup t d).isSome ∨ (surviving t = true ∧ t ∈ ws)) := by
  induction ws generalizing d with
  | nil => simp
  | cons w rest ih =>
    simp only [List.foldl_cons]
    rw [ih]
    by_cases hsurv : surviving w
    · rw [if_pos hsurv]
      by_cases htw : w = t
      · subst htw
        simp [alookup_dictInsert_self, hsurv]
      · rw [alookup_dictInsert_ne _ _ _ _ htw]
        constructor
        · rintro (h | h)
          · exact Or.inl h
          · exact Or.inr ⟨h.1, List.mem_cons_of_mem _ h.2⟩
        · rintro (h | ⟨hs, hm⟩)
          · exact Or.inl h
          · rcases List.mem_cons.mp hm with rfl | hm'
            · exact absurd rfl htw
            · exact Or.inr ⟨hs, hm'⟩
    · rw [if_neg hsurv]
      constructor
      · rintro (h | h)
        · exact Or.inl h
        · exact Or.inr ⟨h.1, List.mem_cons_of_mem _ h.2⟩
      · rintro (h | ⟨hs, hm⟩)
        · exact Or.inl h
        · rcases List.mem_cons.mp hm with rfl | hm'
          · rw [hs] at hsurv; exact absurd rfl hsurv
          · exact Or.inr ⟨hs, hm'⟩

/-- The re-weighting pass of `_process_query` sets every key present in the
dictionary that occurs among the tokens to its final weight `f`. -/
theorem alookup_reweightPass (f : String → ℚ) (ws : List String)
    (d : List (String × ℚ)) (t : String) (hd : (alookup t d).isSome) :
    alookup t (ws.foldl
        (fun d w => if (alookup w d).isSome then dictInsert d w (f w) else d) d) =
      if t ∈ ws then some (f t) else alookup t d := by
  induction ws generalizing d with
  | nil => simp
  | cons w rest ih =>
    simp only [List.foldl_cons]
    by_cases htw : w = t
    · subst htw
      rw [if_pos hd, if_pos (List.mem_cons_self _ _)]
      have hd' : (alookup w (dictInsert d w (f w))).isSome := by
        rw [alookup_dictInsert_self]; rfl
      rw [ih _ hd']
      by_cases hmem : w ∈ rest
      · rw [if_pos hmem]
      · rw [if_neg hmem, alookup_dictInsert_self]
    · have hstep : ∀ d' : List (String × ℚ),
          alookup t (if (alookup w d').isSome then dictInsert d' w (f w) else d')
            = alookup t d' := by
        intro d'
        by_cases hw : (alookup w d').isSome
        · rw [if_pos hw, alookup_dictInsert_ne _ _ _ _ htw]
        · rw [if_neg hw]
      have hd' : (alookup t (if (alookup w d).isSome then dictInsert d w (f w) else d)).isSome := by
        rw [hstep]; exact hd
      rw [ih _ hd', hstep]
      have hiff : (t ∈ w :: rest) ↔ (t ∈ rest) := by
        constructor
        · intro h
          rcases List.mem_cons.mp h with h' | h'
          · exact absurd h'.symm htw
          · exact h'
        · exact fun h => List.mem_cons_of_mem _ h
      by_cases hmem : t ∈ rest
      · rw [if_pos hmem, if_pos (hiff.mpr hmem)]
      · rw [if_neg hmem, if_neg (fun hc => hmem (hiff.mp hc))]

/-- C4 (counterexample): on the query `"cat catalog"`, the surviving term
`"cat"` occurs once among the two query tokens, so the claimed weight is
`1 + 1/2`; but `_process_query` computes `query.count(word)` — a substring
count — which is `2` (`"cat"` also occurs inside `"catalog"`), giving
weight `1 + 2/2 = 2`. -/
theorem process_query_substring_weight :
    alookup "cat" (process_query "cat catalog")
      = some (1 + ((strCount (lowerL "cat catalog".toList) "cat".toList : ℕ) : ℚ)
          / ((((findWords (lowerL "cat catalog".toList)).map List.asString).length : ℕ) : ℚ)) ∧
    strCount (lowerL "cat catalog".toList) "cat".toList = 2 ∧
    (queryWords "cat catalog").count "cat" = 1 ∧
    (queryWords "cat catalog").length = 2 ∧
    (1 + (2 : ℚ) / 2) ≠ 1 + (1 : ℚ) / 2 :=
  ⟨rfl, by decide, by decide, by decide, by norm_num⟩

/-- C4 (amended): each surviving distinct query term `t` receives weight
`1 + query.count(t) / len(words)`, where `query.count` is Python's
*substring* count over the lower-cased query (not the count of `t` among
the query tokens) and `len(words)` is the total token count. -/
theorem process_query_weight (q t : String)
    (ht : t ∈ queryWords q) (hs : surviving t = true) :
    alookup t (process_query q) =
      some (1 + ((strCount (lowerL q.toList) t.toList : ℕ) : ℚ)
        / (((queryWords q).length : ℕ) : ℚ)) := by
  have hd0 := (alookup_isSome_initPass (queryWords q) [] t).mpr (Or.inr ⟨hs, ht⟩)
  have h := alookup_reweightPass
      (fun w => 1 + ((strCount (lowerL q.toList) w.toList : ℕ) : ℚ)
        / (((queryWords q).length : ℕ) : ℚ)) (queryWords q) _ t hd0
  rw [if_pos ht] at h
  exact h

/-- C4 (witness for the amended theorem). -/
theorem process_query_weight_witness :
    alookup "fox" (process_query "fox dog fox") =
      some (1 + ((strCount (lowerL "fox dog fox".toList) "fox".toList : ℕ) : ℚ)
        / (((queryWords "fox dog fox").length : ℕ) : ℚ)) :=
  process_query_weight "fox dog fox" "fox" (by decide) (by decide)

/-! ## C3 — TF-IDF scoring of the inverted index -/

theorem alookup_bump_self (d : List (String × Nat)) (k : String) :
    alookup k (bump d k) = some ((alookup k d).getD 0 + 1) := by
  induction d with
  | nil => simp [bump, alookup]
  | cons p rest ih =>
    obtain ⟨k', v'⟩ := p
    by_cases h : k' = k
    · subst h
      simp [bump, alookup]
    · simp [bump, alookup, h, ih]

theorem alookup_bump_ne (d : List (String × Nat)) (k k0 : String) (h : k ≠ k0) :
    alookup k0 (bump d k) = alookup k0 d := by
  induction d with
  | nil => simp [bump, alookup, h]
  | cons p rest ih =>
    obtain ⟨k', v'⟩ := p
    by_cases h' : k' = k
    · subst h'
      simp [bump, alookup, h]
    · simp only [bump, if_neg h', alookup]
      by_cases h0 : k' = k0 <;> simp [h0, ih]

/-- The number of occurrences of `t` among the *surviving* tokens of `ws`. -/
def survCount (t : String) (ws : List String) : Nat :=
  (ws.filter fun w => surviving w).count t

/-- The counting loop of `_process_chunk_for_index`: the running dictionary
accumulates one unit per surviving occurrence. -/
theorem alookup_countsFold (ws : List String) (d : List (String × Nat)) (t : String) :
    alookup t (ws.foldl (fun d w => if surviving w then bump d w else d) d) =
      match alookup t d with
      | some v => some (v + survCount t ws)
      | none => if 0 < survCount t ws then some (survCount t ws) else none := by
  induction ws generalizing d with
  | nil =>
    cases h : alookup t d <;> simp [survCount, h]
  | cons w rest ih =>
    simp only [List.foldl_cons]
    by_cases hsurv : surviving w
    · rw [if_pos hsurv]
      by_cases htw : w = t
      · subst htw
        rw [ih]
        have hcnt : survCount w (w :: rest) = survCount w rest + 1 := by
          simp [survCount, List.filter_cons, hsurv, List.count_cons]
        rw [alookup_bump_self, hcnt]
        cases h : alookup w d
        · simp [h]
          omega
        · simp [h]
          omega
      · rw [ih, alookup_bump_ne _ _ _ htw]
        have hcnt : survCount t (w :: rest) = survCount t rest := by
          simp only [survCount, List.filter_cons, hsurv, if_true]
          rw [List.count_cons]
          simp [htw]
        rw [hcnt]
    · rw [if_neg hsurv, ih]
      have hcnt : survCount t (w :: rest) = survCount t rest := by
        simp [survCount, List.filter_cons, hsurv]
      rw [hcnt]

/-- Normalizing the counts dictionary by the total token count, as seen
through lookup. -/
theorem alookup_normalize (len : ℚ) (d : List (String × Nat)) (t : String) :
    alookup t (d.map fun p => (p.1, (p.2 : ℚ) / len)) =
      (alookup t d).map (fun v => (v : ℚ) / len) := by
  induction d with
  | nil => simp [alookup]
  | cons p rest ih =>
    obtain ⟨k', v'⟩ := p
    by_cases h : k' = t <;> simp [alookup, h, ih]

/-- The term-frequency dictionary of a chunk assigns `t` the count of `t`
among the surviving tokens divided by the total token count. -/
theorem termFreqs_alookup (content : String) (t : String)
    (hpos : 0 < survCount t (tokensOf content)) :
    alookup t (termFreqs content) =
      some ((survCount t (tokensOf content) : ℚ) / ((tokensOf content).length : ℚ)) := by
  have hne : (tokensOf content).length ≠ 0 := by
    intro hlen
    rw [List.length_eq_zero] at hlen
    rw [hlen] at hpos
    simp [survCount] at hpos
  unfold termFreqs
  rw [if_neg hne, alookup_normalize]
  unfold termCounts
  rw [alookup_countsFold (tokensOf content) [] t]
  simp only [alookup]
  rw [if_pos hpos]
  rfl

theorem find?_append_none {β : Type} (p : β → Bool) (l1 l2 : List β)
    (h : List.find? p l1 = none) :
    List.find? p (l1 ++ l2) = List.find? p l2 := by
  rw [List.find?_append, h]
  rfl

theorem find?_append_some {β : Type} (p : β → Bool) (l1 l2 : List β) (x : β)
    (h : List.find? p l1 = some x) :
    List.find? p (l1 ++ l2) = some x := by
  rw [List.find?_append, h]
  rfl

/-- Scanning the entries generated from one chunk's term frequencies finds
exactly the `(tf, df)` pair of the first occurrence of `t`, provided its
document frequency is positive. -/
theorem find?_chunk_entries (corpus : List RawChunk) (cid t : String)
    (l : List (String × ℚ)) (q : ℚ) (hq : alookup t l = some q)
    (hdf : 0 < dfTerm corpus t) :
    List.find? (fun e => e.1 = (t, cid))
        (l.filterMap fun p =>
          if 0 < dfTerm corpus p.1 then some ((p.1, cid), p.2, dfTerm corpus p.1)
          else none) =
      some ((t, cid), q, dfTerm corpus t) := by
  induction l with
  | nil => simp [alookup] at hq
  | cons p rest ih =>
    obtain ⟨t', q'⟩ := p
    by_cases h : t' = t
    · subst h
      have hq' : q' = q := by
        simpa [alookup] using hq
      subst hq'
      simp only [List.filterMap_cons, if_pos hdf]
      rw [List.find?_cons_of_pos]
      simp
    · have hqrest : alookup t rest = some q := by
        simpa [alookup, h] using hq
      simp only [List.filterMap_cons]
      by_cases hdf' : 0 < dfTerm corpus t'
      · rw [if_pos hdf']
        rw [List.find?_cons_of_neg]
        · exact ih hqrest
        · simp [h]
      · rw [if_neg hdf']
        exact ih hqrest

/-- Every surviving token of a contributing chunk has positive document
frequency: its own document counts. -/
theorem dfTerm_pos (corpus : List RawChunk) (c : RawChunk) (t : String)
    (hc : c ∈ corpus) (hcontrib : contributing c = true)
    (hq : (alookup t (termFreqs c.content)).isSome) :
    0 < dfTerm corpus t := by
  unfold dfTerm
  rw [List.countP_pos_iff]
  refine ⟨c.docId, ?_, ?_⟩
  · unfold corpusDocs
    rw [List.mem_dedup]
    exact List.mem_map.mpr ⟨c, List.mem_filter.mpr ⟨hc, hcontrib⟩, rfl⟩
  · unfold docHasTerm
    rw [List.any_eq_true]
    exact ⟨c, List.mem_filter.mpr ⟨hc, hcontrib⟩, by simp [hq]⟩

/-- C3: for every chunk of the corpus and every surviving term `t` of that
chunk (under the guards of the refresh: non-empty `doc_id`, distinct chunk
identifiers), the inverted-index cell built by `_refresh_inverted_index`
carries the score `tf * ln(total_documents / df + 1)`, where `tf` is the
count of `t` among the chunk's surviving tokens divided by the chunk's
total token count and `df` is the corpus document frequency of `t`. -/
theorem inverted_index_tfidf (totalDocs : Nat) (corpus : List RawChunk) (c : RawChunk)
    (t : String)
    (hnodup : ((corpus.filter contributing).map rawChunkId).Nodup)
    (hc : c ∈ corpus) (hdoc : c.docId.isEmpty = false)
    (ht : 0 < survCount t (tokensOf c.content)) :
    (lookupIndex corpus t (rawChunkId c)).map (entryScore totalDocs) =
      some (((survCount t (tokensOf c.content) : ℝ) / ((tokensOf c.content).length : ℝ)) *
        Real.log ((totalDocs : ℝ) / (dfTerm corpus t : ℝ) + 1)) := by
  have htf := termFreqs_alookup c.content t ht
  have hcontrib : contributing c = true := by
    unfold contributing
    rw [hdoc]
    have hnil : termFreqs c.content ≠ [] := by
      intro hnil
      rw [hnil] at htf
      simp [alookup] at htf
    simp [hnil]
  have hdf : 0 < dfTerm corpus t :=
    dfTerm_pos corpus c t hc hcontrib (by rw [htf]; rfl)
  obtain ⟨xs, ys, hsplit⟩ := List.append_of_mem (List.mem_filter.mpr ⟨hc, hcontrib⟩)
  have hxs : List.find? (fun e => e.1 = (t, rawChunkId c))
      (xs.flatMap fun c' =>
        (termFreqs c'.content).filterMap fun p =>
          if 0 < dfTerm corpus p.1 then some ((p.1, rawChunkId c'), p.2, dfTerm corpus p.1)
          else none) = none := by
    rw [List.find?_eq_none]
    intro e he
    rcases List.mem_flatMap.mp he with ⟨c', hc', hee⟩
    rcases List.mem_filterMap.mp hee with ⟨p, _, hpe⟩
    have hne : rawChunkId c' ≠ rawChunkId c := by
      have hxsnd := hsplit ▸ hnodup
      rw [List.map_append, List.map_cons] at hxsnd
      have hdisj := (List.nodup_append.mp hxsnd).2.2
      intro heq
      have hmem : rawChunkId c' ∈ xs.map rawChunkId := List.mem_map.mpr ⟨c', hc', rfl⟩
      have hnot := hdisj hmem
      rw [heq] at hnot
      exact hnot (List.mem_cons_self _ _)
    by_cases hdfp : 0 < dfTerm corpus p.1
    · rw [if_pos hdfp] at hpe
      injection hpe with hpe'
      simp only [decide_eq_true_eq]
      rw [← hpe']
      intro hcontra
      exact hne (congrArg Prod.snd hcontra)
    · rw [if_neg hdfp] at hpe
      cases hpe
  have hlookup : lookupIndex corpus t (rawChunkId c) =
      some ((survCount t (tokensOf c.content) : ℚ) / ((tokensOf c.content).length : ℚ),
        dfTerm corpus t) := by
    unfold lookupIndex indexEntries
    rw [hsplit, List.flatMap_append, List.flatMap_cons]
    rw [find?_append_none _ _ _ hxs]
    rw [find?_append_some _ _ _ _
      (find?_chunk_entries corpus (rawChunkId c) t (termFreqs c.content) _ htf hdf)]
    rfl
  rw [hlookup]
  simp only [Option.map_some', entryScore, Option.some.injEq]
  push_cast
  ring

/-- C3 (witness): a two-chunk corpus over one document; the surviving term
`"alpha"` of the first chunk gets `tf = 1/2` (one surviving occurrence of
two tokens) and `df = 1`. -/
theorem inverted_index_tfidf_witness :
    ((lookupIndex [⟨"d", "0", "alpha beta"⟩, ⟨"d", "1", "alpha"⟩] "alpha"
        (rawChunkId ⟨"d", "0", "alpha beta"⟩)).map (entryScore 1)) =
      some (((survCount "alpha" (tokensOf (⟨"d", "0", "alpha beta"⟩ : RawChunk).content) : ℝ) /
          ((tokensOf (⟨"d", "0", "alpha beta"⟩ : RawChunk).content).length : ℝ)) *
        Real.log (((1 : ℕ) : ℝ) /
          (dfTerm [⟨"d", "0", "alpha beta"⟩, ⟨"d", "1", "alpha"⟩] "alpha" : ℝ) + 1)) :=
  inverted_index_tfidf 1 [⟨"d", "0", "alpha beta"⟩, ⟨"d", "1", "alpha"⟩]
    ⟨"d", "0", "alpha beta"⟩ "alpha" (by decide) (by decide) (by decide) (by decide)
/-! ## C5 — coverage boost and ranking monotonicity -/

/-- Every term-frequency value of a chunk is nonnegative. -/
theorem termFreqs_value_nonneg (content : String) :
    ∀ p ∈ termFreqs content, 0 ≤ p.2 := by
  intro p hp
  unfold termFreqs at hp
  by_cases h : (tokensOf content).length = 0
  · rw [if_pos h] at hp
    cases hp
  · rw [if_neg h] at hp
    rcases List.mem_map.mp hp with ⟨p', _, hpe⟩
    rw [← hpe]
    positivity

/-- Every `tf` stored in the inverted index is nonnegative. -/
theorem indexEntries_tf_nonneg (corpus : List RawChunk) :
    ∀ e ∈ indexEntries corpus, 0 ≤ e.2.1 := by
  intro e he
  unfold indexEntries at he
  rcases List.mem_flatMap.mp he with ⟨c, _, hee⟩
  rcases List.mem_filterMap.mp hee with ⟨p, hp, hpe⟩
  by_cases hdf : 0 < dfTerm corpus p.1
  · rw [if_pos hdf] at hpe
    injection hpe with hpe'
    rw [← hpe']
    exact termFreqs_value_nonneg c.content p hp
  · rw [if_neg hdf] at hpe
    cases hpe

/-- Every interpreted index score is nonnegative: the `tf` factor is
nonnegative and `ln(total_documents / df + 1) ≥ ln 1 = 0`. -/
theorem entryScore_nonneg (totalDocs : Nat) (corpus : List RawChunk)
    (t cid : String) (p : ℚ × Nat) (h : lookupIndex corpus t cid = some p) :
    0 ≤ entryScore totalDocs p := by
  unfold lookupIndex at h
  cases hf : (indexEntries corpus).find? (fun e => e.1 = (t, cid)) with
  | none => rw [hf] at h; cases h
  | some e =>
    rw [hf] at h
    injection h with h'
    have he : e ∈ indexEntries corpus := List.mem_of_find?_eq_some hf
    have htf : (0 : ℚ) ≤ e.2.1 := indexEntries_tf_nonneg corpus e he
    rw [← h']
    unfold entryScore
    have h1 : (0 : ℝ) ≤ (e.2.1 : ℝ) := by exact_mod_cast htf
    have h2 : (0 : ℝ) ≤ Real.log ((totalDocs : ℝ) / (e.2.2 : ℝ) + 1) := by
      apply Real.log_nonneg
      have : (0 : ℝ) ≤ (totalDocs : ℝ) / (e.2.2 : ℝ) := by positivity
      linarith
    exact mul_nonneg h1 h2

/-- A value invariant is preserved by dictionary insertion. -/
theorem dictInsert_forall_values {κ β : Type} [DecidableEq κ] (P : β → Prop)
    (d : List (κ × β)) (k : κ) (v : β)
    (hd : ∀ p ∈ d, P p.2) (hv : P v) :
    ∀ p ∈ dictInsert d k v, P p.2 := by
  induction d with
  | nil =>
    intro p hp
    simp only [dictInsert, List.mem_singleton] at hp
    rw [hp]
    exact hv
  | cons p0 rest ih =>
    obtain ⟨k', v'⟩ := p0
    intro p hp
    by_cases h : k' = k
    · rw [dictInsert, if_pos h] at hp
      rcases List.mem_cons.mp hp with rfl | hp'
      · exact hv
      · exact hd p (List.mem_cons_of_mem _ hp')
    · rw [dictInsert, if_neg h] at hp
      rcases List.mem_cons.mp hp with rfl | hp'
      · exact hd (k', v') (List.mem_cons_self _ _)
      · exact ih (fun p hp => hd p (List.mem_cons_of_mem _ hp)) p hp'

/-- Every query-term weight produced by `_process_query` is nonnegative
(the initial weight is `1`, the re-weighted value `1 + count/len ≥ 1`). -/
theorem process_query_weights_nonneg (q : String) :
    ∀ tw ∈ process_query q, (0 : ℚ) ≤ tw.2 := by
  have step1 : ∀ (ws : List String) (d : List (String × ℚ)),
      (∀ p ∈ d, (0 : ℚ) ≤ p.2) →
      ∀ p ∈ ws.foldl (fun d w => if surviving w then dictInsert d w 1 else d) d,
        (0 : ℚ) ≤ p.2 := by
    intro ws
    induction ws with
    | nil => intro d hd; exact hd
    | cons w rest ih =>
      intro d hd
      simp only [List.foldl_cons]
      apply ih
      by_cases h : surviving w
      · rw [if_pos h]
        exact dictInsert_forall_values _ d w 1 hd (by norm_num)
      · rw [if_neg h]
        exact hd
  have step2 : ∀ (f : String → ℚ), (∀ w, 0 ≤ f w) →
      ∀ (ws : List String) (d : List (String × ℚ)),
      (∀ p ∈ d, (0 : ℚ) ≤ p.2) →
      ∀ p ∈ ws.foldl
          (fun d w => if (alookup w d).isSome then dictInsert d w (f w) else d) d,
        (0 : ℚ) ≤ p.2 := by
    intro f hf ws
    induction ws with
    | nil => intro d hd; exact hd
    | cons w rest ih =>
      intro d hd
      simp only [List.foldl_cons]
      apply ih
      by_cases h : (alookup w d).isSome
      · rw [if_pos h]
        exact dictInsert_forall_values _ d w (f w) hd (hf w)
      · rw [if_neg h]
        exact hd
  intro tw htw
  refine step2 _ ?_ _ _ (step1 _ [] (by simp)) tw htw
  intro w
  positivity

/-- The accumulated pre-boost score of any chunk is nonnegative: a sum of
`index_score * term_weight` products of nonnegative factors. -/
theorem accumScore_nonneg (totalDocs : Nat) (corpus : List RawChunk)
    (q : String) (docIds : Option (List String)) (cid : String) :
    0 ≤ accumScore totalDocs corpus (process_query q) docIds cid := by
  unfold accumScore
  apply List.sum_nonneg
  intro x hx
  rcases List.mem_map.mp hx with ⟨tw, htw, hxe⟩
  rw [← hxe]
  cases hl : lookupIndex corpus tw.1 cid with
  | none => simp
  | some p =>
    simp only
    by_cases hfil : docFilterOk docIds cid
    · rw [if_pos hfil]
      have hw : (0 : ℚ) ≤ tw.2 := process_query_weights_nonneg q tw htw
      have hw' : (0 : ℝ) ≤ (tw.2 : ℝ) := by exact_mod_cast hw
      exact mul_nonneg (entryScore_nonneg totalDocs corpus tw.1 cid p hl) hw'
    · rw [if_neg hfil]

/-- C5: the coverage boost multiplies each candidate's accumulated score by
`1 + matched/total`; consequently, for candidates with equal accumulated
pre-boost scores, the one matching strictly more distinct query terms has
the final score at least as large. -/
theorem final_score_monotone (totalDocs : Nat) (corpus : List RawChunk)
    (q : String) (docIds : Option (List String)) (cidA cidB : String)
    (heq : accumScore totalDocs corpus (process_query q) docIds cidA
         = accumScore totalDocs corpus (process_query q) docIds cidB)
    (hB : 0 < matchCount corpus (process_query q) docIds cidB)
    (hm : matchCount corpus (process_query q) docIds cidB
        < matchCount corpus (process_query q) docIds cidA) :
    finalScore totalDocs corpus (process_query q) docIds cidB
      ≤ finalScore totalDocs corpus (process_query q) docIds cidA := by
  have hnn : 0 ≤ accumScore totalDocs corpus (process_query q) docIds cidB :=
    accumScore_nonneg totalDocs corpus q docIds cidB
  have hlen : 0 < (process_query q).length := by
    have h1 : matchCount corpus (process_query q) docIds cidA ≤ (process_query q).length :=
      List.countP_le_length _
    omega
  have hlen' : (0 : ℝ) < ((process_query q).length : ℝ) := by exact_mod_cast hlen
  have hml : (matchCount corpus (process_query q) docIds cidB : ℝ)
      ≤ (matchCount corpus (process_query q) docIds cidA : ℝ) := by
    exact_mod_cast le_of_lt hm
  unfold finalScore
  rw [heq]
  gcongr

/-- With `total_documents = 0`, every index score interprets to
`tf * ln(0/df + 1) = 0`, so every accumulated score is `0`. -/
theorem accumScore_totalDocs_zero (corpus : List RawChunk)
    (qts : List (String × ℚ)) (docIds : Option (List String)) (cid : String) :
    accumScore 0 corpus qts docIds cid = 0 := by
  unfold accumScore
  apply List.sum_eq_zero
  intro x hx
  rcases List.mem_map.mp hx with ⟨tw, _, hxe⟩
  rw [← hxe]
  cases hl : lookupIndex corpus tw.1 cid with
  | none => simp
  | some p =>
    simp only
    by_cases hfil : docFilterOk docIds cid
    · rw [if_pos hfil]
      unfold entryScore
      simp [Real.log_one]
    · rw [if_neg hfil]

/-- C5 (witness): a two-chunk corpus where chunk `d_0` matches both query
terms and chunk `d_1` matches one, with equal (zero) accumulated scores. -/
theorem final_score_monotone_witness :
    finalScore 0 [⟨"d", "0", "alpha beta"⟩, ⟨"d", "1", "alpha"⟩]
        (process_query "alpha beta") none "d_1"
      ≤ finalScore 0 [⟨"d", "0", "alpha beta"⟩, ⟨"d", "1", "alpha"⟩]
          (process_query "alpha beta") none "d_0" :=
  final_score_monotone 0 [⟨"d", "0", "alpha beta"⟩, ⟨"d", "1", "alpha"⟩]
    "alpha beta" none "d_0" "d_1"
    (by simp [accumScore_totalDocs_zero])
    (by decide) (by decide)

end OmniChat
